import Mathlib

/-!
Shallow embedding of the nzb-streamer repository (Rust) and proofs about it.

Each Rust function named in a claim is translated into an executable Lean
definition operating on byte buffers modelled as `List Nat` (one entry per
byte), with machine arithmetic made explicit where the Rust code wraps.
Stateful code is modelled by explicit state passing; fallible code returns
`Except` or `Option`; loops whose Rust originals can diverge on adversarial
input take an explicit fuel argument, with `none` standing for fuel
exhaustion.  The file is organised as definitions first, then theorems.
-/

namespace NzbStreamer

/-! ## Buffer health (src/stream/orchestrator.rs, src/stream/segment_tracker.rs)

`BufferHealth` is the four-level enum shared (by duplication) between the
orchestrator and the segment tracker.
-/

inductive BufferHealth where
  | Critical
  | Poor
  | Good
  | Excellent
deriving DecidableEq, Repr

namespace StreamOrchestrator

/-- `StreamOrchestrator::get_buffer_health` (src/stream/orchestrator.rs lines
165-177): reads the playback file index and the count of complete files,
forms `buffer = complete.saturating_sub(playback)` and matches it against
the ranges 0..=2, 3..=5, 6..=10, and everything above.  Nat subtraction is
saturating, matching `saturating_sub`. -/
def get_buffer_health (playback complete : Nat) : BufferHealth :=
  let buffer := complete - playback
  if buffer ≤ 2 then .Critical
  else if buffer ≤ 5 then .Poor
  else if buffer ≤ 10 then .Good
  else .Excellent

end StreamOrchestrator

namespace SegmentTracker

/-- `SegmentTracker::get_buffer_health` (src/stream/segment_tracker.rs lines
74-85): `buffer = available.saturating_sub(playback)` matched against
0..=10, 11..=50, 51..=200, and everything above. -/
def get_buffer_health (playback available : Nat) : BufferHealth :=
  let buffer := available - playback
  if buffer ≤ 10 then .Critical
  else if buffer ≤ 50 then .Poor
  else if buffer ≤ 200 then .Good
  else .Excellent

end SegmentTracker

/-! ## RAR volume ordering (src/archive/rar.rs) -/

/-- `RarExt` (src/archive/rar.rs lines 95-99): the volume key, `Main` for the
bare `.rar` volume and `Part n` for `.rNN`. -/
inductive RarExt where
  | Main
  | Part (n : Nat)
deriving DecidableEq, Repr

/-- `impl Ord for RarExt` (src/archive/rar.rs lines 111-121). `u32` ordering
is embedded as `Nat` ordering. -/
def RarExt.cmp : RarExt → RarExt → Ordering
  | .Main, .Main => .eq
  | .Main, _ => .lt
  | _, .Main => .gt
  | .Part a, .Part b => compare a b

/-! ## PAR2 packet parsing (src/archive/packet.rs, src/archive/mod.rs)

The error enum of src/archive/error.rs (src/archive/mod.rs imports it under
the name `Par2Error`); the payloads of `Io` and `FilenameNotFound` are
dropped because no claim inspects them.
-/

inductive ArchiveError where
  | Io
  | NoFiles
  | IncompleteData
  | Parse
  | MalformedRar
  | FilenameNotFound
deriving DecidableEq, Repr

namespace Par2

/-- `b"PAR2\x00PKT"` -/
def PAR_PKT_ID : List Nat := [0x50, 0x41, 0x52, 0x32, 0x00, 0x50, 0x4B, 0x54]

/-- `b"PAR 2.0\x00Main\x00\x00\x00\x00"` -/
def PAR_MAIN_ID : List Nat :=
  [0x50, 0x41, 0x52, 0x20, 0x32, 0x2E, 0x30, 0x00,
   0x4D, 0x61, 0x69, 0x6E, 0x00, 0x00, 0x00, 0x00]

/-- `b"PAR 2.0\x00FileDesc"` -/
def PAR_FILE_ID : List Nat :=
  [0x50, 0x41, 0x52, 0x20, 0x32, 0x2E, 0x30, 0x00,
   0x46, 0x69, 0x6C, 0x65, 0x44, 0x65, 0x73, 0x63]

/-- `b"PAR 2.0\x00IFSC\x00\x00\x00\x00"` -/
def PAR_SLICE_ID : List Nat :=
  [0x50, 0x41, 0x52, 0x20, 0x32, 0x2E, 0x30, 0x00,
   0x49, 0x46, 0x53, 0x43, 0x00, 0x00, 0x00, 0x00]

/-- `MainPacket` (src/archive/packet.rs). -/
structure MainPacket where
  slice_size : Nat
deriving DecidableEq, Repr

/-- `FileDescPacket` (src/archive/packet.rs).  `file_id` is kept as the raw
16 bytes that the source hex-encodes; `filename` is the byte content of the
Rust `String` (the source checks UTF-8 validity before building it). -/
structure FileDescPacket where
  file_id : List Nat
  filename : List Nat
  hash16k : List Nat
  filesize : Nat
deriving DecidableEq, Repr

/-- `IFSCPacket` (src/archive/packet.rs). -/
structure IFSCPacket where
  file_id : List Nat
  crcs : List Nat
deriving DecidableEq, Repr

/-- `Packet` (src/archive/packet.rs). -/
inductive Packet where
  | Main (p : MainPacket)
  | FileDesc (d : FileDescPacket)
  | IFSC (p : IFSCPacket)
deriving DecidableEq, Repr

def Packet.isFileDesc : Packet → Bool
  | .FileDesc _ => true
  | _ => false

def Packet.isMain : Packet → Bool
  | .Main _ => true
  | _ => false

/-- The `take` helper (src/archive/packet.rs lines 149-154): split off the
first `n` bytes, failing when fewer are available (`slice.get(..len)`). -/
def takeBytes (l : List Nat) (n : Nat) : Option (List Nat × List Nat) :=
  if n ≤ l.length then some (l.take n, l.drop n) else none

/-- Little-endian value of a byte list (`LittleEndian::read_u64` and
friends read a fixed number of bytes; the caller fixes the width). -/
def leVal : List Nat → Nat
  | [] => 0
  | b :: rest => b + 256 * leVal rest

/-- Continuation byte of UTF-8. -/
def isCont (b : Nat) : Bool := 0x80 ≤ b && b ≤ 0xBF

/-- UTF-8 validity of a byte list, as checked by Rust
`String::from_utf8` (fuel-indexed so the kernel can evaluate it; the
fuel `l.length + 1` used below always suffices since every step consumes
at least one byte). -/
def isValidUtf8Fuel : Nat → List Nat → Bool
  | 0, l => l.isEmpty
  | _, [] => true
  | fuel + 1, b :: rest =>
    if b ≤ 0x7F then isValidUtf8Fuel fuel rest
    else if 0xC2 ≤ b && b ≤ 0xDF then
      match rest with
      | c1 :: r => isCont c1 && isValidUtf8Fuel fuel r
      | [] => false
    else if b = 0xE0 then
      match rest with
      | c1 :: c2 :: r =>
        (0xA0 ≤ c1 && c1 ≤ 0xBF) && isCont c2 && isValidUtf8Fuel fuel r
      | _ => false
    else if (0xE1 ≤ b && b ≤ 0xEC) || b = 0xEE || b = 0xEF then
      match rest with
      | c1 :: c2 :: r => isCont c1 && isCont c2 && isValidUtf8Fuel fuel r
      | _ => false
    else if b = 0xED then
      match rest with
      | c1 :: c2 :: r =>
        (0x80 ≤ c1 && c1 ≤ 0x9F) && isCont c2 && isValidUtf8Fuel fuel r
      | _ => false
    else if b = 0xF0 then
      match rest with
      | c1 :: c2 :: c3 :: r =>
        (0x90 ≤ c1 && c1 ≤ 0xBF) && isCont c2 && isCont c3 &&
          isValidUtf8Fuel fuel r
      | _ => false
    else if 0xF1 ≤ b && b ≤ 0xF3 then
      match rest with
      | c1 :: c2 :: c3 :: r =>
        isCont c1 && isCont c2 && isCont c3 && isValidUtf8Fuel fuel r
      | _ => false
    else if b = 0xF4 then
      match rest with
      | c1 :: c2 :: c3 :: r =>
        (0x80 ≤ c1 && c1 ≤ 0x8F) && isCont c2 && isCont c3 &&
          isValidUtf8Fuel fuel r
      | _ => false
    else false

def isValidUtf8 (l : List Nat) : Bool := isValidUtf8Fuel (l.length + 1) l

/-- `parse_main_packet` (src/archive/packet.rs lines 87-92). -/
def parse_main_packet (body : List Nat) : Option Packet := do
  let (bytes, _) ← takeBytes body 8
  some (.Main ⟨leVal bytes⟩)

/-- `parse_file_packet` (src/archive/packet.rs lines 105-121):
file ID (16 bytes), a skipped full-file MD5 (16), the 16k hash (16), the
file size (8, little endian), then the filename up to the first NUL,
which must be valid UTF-8. -/
def parse_file_packet (body : List Nat) : Option Packet := do
  let (fid, body) ← takeBytes body 16
  let (_md5, body) ← takeBytes body 16
  let (h16, body) ← takeBytes body 16
  let (szBytes, body) ← takeBytes body 8
  let nameBytes := body.takeWhile (fun b => b ≠ 0)
  if isValidUtf8 nameBytes then
    some (.FileDesc ⟨fid, nameBytes, h16, leVal szBytes⟩)
  else none

/-- The CRC list of an IFSC packet: `chunks_exact(20)`, little-endian u32
of bytes 16..20 of each chunk; chunk `i` spans bytes `20*i .. 20*i+20`. -/
def sliceCrcs (l : List Nat) : List Nat :=
  (List.range (l.length / 20)).map (fun i => leVal ((l.drop (20 * i + 16)).take 4))

/-- `parse_slice_packet` (src/archive/packet.rs lines 134-147). -/
def parse_slice_packet (body : List Nat) : Option Packet := do
  let (fid, body) ← takeBytes body 16
  if body.length % 20 = 0 then
    some (.IFSC ⟨fid, sliceCrcs body⟩)
  else none

/-- `parse_packet` (src/archive/packet.rs lines 45-74): check the magic,
read the 8-byte little-endian packet length, require
`32 ≤ pack_len ≤ input.len()`, take the body `input.get(32 .. pack_len)`,
skip the 16-byte recovery-set ID, dispatch on the 16-byte type tag.
Returns the packet together with `pack_len`, the number of bytes consumed. -/
def parse_packet (input : List Nat) : Option (Packet × Nat) :=
  if PAR_PKT_ID.isPrefixOf input then do
    let (_, cursor) ← takeBytes input 8
    let (packBytes, _) ← takeBytes cursor 8
    let pack_len := leVal packBytes
    if pack_len < 32 || input.length < pack_len then none
    else do
      let body := (input.drop 32).take (pack_len - 32)
      let (_recovery, body) ← takeBytes body 16
      let (ptype, body) ← takeBytes body 16
      let packet ←
        if ptype = PAR_MAIN_ID then parse_main_packet body
        else if ptype = PAR_FILE_ID then parse_file_packet body
        else if ptype = PAR_SLICE_ID then parse_slice_packet body
        else none
      some (packet, pack_len)
  else none

/-- The scanning loop of `scan_for_packets` (src/archive/mod.rs lines
56-70): at each cursor position, parse a packet and advance by its length
(at least 32), or advance by one byte.  Fuel-indexed; since every step
consumes at least one byte, the fuel `b.length` used in
`scan_for_packets` always suffices. -/
def scanAux : Nat → List Nat → List Packet
  | 0, _ => []
  | _, [] => []
  | fuel + 1, l@(_ :: rest) =>
    match parse_packet l with
    | some (p, n) => p :: scanAux fuel (l.drop n)
    | none => scanAux fuel rest

/-- `scan_for_packets` (src/archive/mod.rs lines 56-70). -/
def scan_for_packets (buffer : List Nat) : List Packet :=
  scanAux buffer.length buffer

/-- `FileInfo` (src/archive/par2.rs lines 24-28); `hash16k` keeps its raw
bytes. -/
structure FileInfo where
  real_filename : List Nat
  hash16k : List Nat
deriving DecidableEq, Repr

/-- `Par2Manifest` (src/archive/par2.rs lines 19-22).  The Rust
`HashMap<String, FileInfo>` is modelled as an association list with
unique keys; `insertFile` gives the last-write-wins `HashMap::insert`
semantics, and only emptiness and key lookup are relied on (iteration
order of the Rust map is unspecified anyway). -/
structure Par2Manifest where
  files : List (List Nat × FileInfo)
deriving DecidableEq, Repr

/-- `HashMap::insert`: replace the value at an existing key, otherwise
append the binding. -/
def insertFile : List (List Nat × FileInfo) → List Nat → FileInfo →
    List (List Nat × FileInfo)
  | [], k, v => [(k, v)]
  | (k0, v0) :: rest, k, v =>
    if k0 = k then (k0, v) :: rest else (k0, v0) :: insertFile rest k v

/-- `HashMap::get` on the association-list model. -/
def lookupFile : List (List Nat × FileInfo) → List Nat → Option FileInfo
  | [], _ => none
  | (k0, v0) :: rest, k => if k0 = k then some v0 else lookupFile rest k

/-- One step of the packet loop in `parse_buffer` (src/archive/mod.rs
lines 27-41): FileDesc packets insert an entry keyed by their filename;
Main packets only set the `found_main` flag (which fuels a warning only);
IFSC packets are ignored. -/
def filesStep (m : List (List Nat × FileInfo)) : Packet →
    List (List Nat × FileInfo)
  | .FileDesc desc => insertFile m desc.filename ⟨desc.filename, desc.hash16k⟩
  | _ => m

/-- `parse_buffer` (src/archive/mod.rs lines 21-54): scan for packets,
collect FileDesc entries into the map, fail with `NoFiles` when the map
is empty; a missing Main packet is only warned about (`warn!` is a
no-op in the embedding), then the manifest is returned. -/
def parse_buffer (buffer : List Nat) : Except ArchiveError Par2Manifest :=
  let packets := scan_for_packets buffer
  let files := packets.foldl filesStep []
  if files.isEmpty then .error .NoFiles else .ok ⟨files⟩

/-- One step of the search for the last FileDesc packet with filename
`k` (specification helper describing the last-write-wins contents of the
map). -/
def lastStep (k : List Nat) (acc : Option FileDescPacket) (p : Packet) :
    Option FileDescPacket :=
  match p with
  | .FileDesc d => if d.filename = k then some d else acc
  | _ => acc

/-- The last FileDesc packet of the list whose filename is `k`. -/
def lastFileDescFor (packets : List Packet) (k : List Nat) :
    Option FileDescPacket :=
  packets.foldl (lastStep k) none

/-- A concrete 120-byte buffer holding exactly one valid FileDesc packet
(empty filename, all-zero hashes and size) and no Main packet; used to
witness the PAR2 theorems. -/
def demoFileDescBuf : List Nat :=
  PAR_PKT_ID ++ [120, 0, 0, 0, 0, 0, 0, 0] ++
    List.replicate 16 0 ++ List.replicate 16 0 ++ PAR_FILE_ID ++
    List.replicate 16 0 ++ List.replicate 16 0 ++ List.replicate 16 0 ++
    List.replicate 8 0

end Par2

/-! ## RAR volume analysis (src/archive/rar.rs)

`analyse_rar_buffer` walks the classic-RAR headers of a byte buffer.
The tokio cursor is modelled by an explicit byte position; every failed
read or seek becomes `ArchiveError.Io` (the `#[from] std::io::Error`
conversion of src/archive/error.rs).  The Rust `while let` loop can run
forever on a crafted buffer (a non-file header with `header_size = 0`
leaves the cursor in place), so the loop takes fuel and `none` stands for
divergence; the fuel `b.length + 2` used by `analyse_rar_buffer` suffices
for every terminating run because each loop iteration that continues
advances the cursor by `header_size ≥ 1` and the loop stops once fewer
than two bytes remain to read.
-/

namespace Rar

def RAR_SIGNATURE : List Nat := [0x52, 0x61, 0x72, 0x21, 0x1A, 0x07, 0x00]

def MKV_SIGNATURE : List Nat := [0x1A, 0x45, 0xDF, 0xA3]

/-- `buffer.windows(n).position(|w| w == pat)`: index of the first window
equal to `pat` (no window exists when fewer than `pat.length` bytes
remain). -/
def findWindow (pat : List Nat) : List Nat → Option Nat
  | [] => if pat.length = 0 then some 0 else none
  | l@(_ :: rest) =>
    if pat.length ≤ l.length then
      if pat.isPrefixOf l then some 0
      else (findWindow pat rest).map (· + 1)
    else none

/-- `read_u8`: one byte at `pos`, or an I/O error past the end. -/
def readU8 (b : List Nat) (pos : Nat) : Except ArchiveError (Nat × Nat) :=
  if pos + 1 ≤ b.length then .ok (b.getD pos 0, pos + 1) else .error .Io

/-- `read_u16_le`. -/
def readU16le (b : List Nat) (pos : Nat) : Except ArchiveError (Nat × Nat) :=
  if pos + 2 ≤ b.length then
    .ok (b.getD pos 0 + 256 * b.getD (pos + 1) 0, pos + 2)
  else .error .Io

/-- `read_u32_le`. -/
def readU32le (b : List Nat) (pos : Nat) : Except ArchiveError (Nat × Nat) :=
  if pos + 4 ≤ b.length then
    .ok (Par2.leVal ((b.drop pos).take 4), pos + 4)
  else .error .Io

/-- `seek(SeekFrom::Current(delta))`: a cursor may be positioned past the
end of the buffer but never before position zero. -/
def seekCur (pos : Nat) (delta : Int) : Except ArchiveError Nat :=
  if (pos : Int) + delta < 0 then .error .Io
  else .ok ((pos : Int) + delta).toNat

/-- The tail of the `RAR_FILE_HEAD` branch (src/archive/rar.rs lines
64-81) once the cursor sits at the payload (`data_offset = dofs`,
`data_length = pack`): for the first volume, `read_exact` a window of
`min 1024 pack` payload bytes (reading zero bytes always succeeds, and a
short buffer raises an I/O error) and advance to the first MKV signature
if one occurs; otherwise return the header-derived values unchanged. -/
def fileTail (b : List Nat) (isFirst : Bool) (dofs pack : Nat) :
    Except ArchiveError (Nat × Nat) :=
  if isFirst then
    let n := min 1024 pack
    if n = 0 then .ok (dofs, pack)
    else if dofs + n ≤ b.length then
      match findWindow MKV_SIGNATURE ((b.drop dofs).take n) with
      | some k => .ok (dofs + k, pack - k)
      | none => .ok (dofs, pack)
    else .error .Io
  else .ok (dofs, pack)

/-- The header-walking loop of `analyse_rar_buffer` (src/archive/rar.rs
lines 46-90).  An exhausted `read_u16_le` ends the `while let` loop and
the function returns the initial `(0, 0)`; a failing read inside the loop
body propagates as an error; a `0x74` file header reads `pack_size` and
the unpacked size, skips the rest of the header and finishes through
`fileTail`; `0x7B` ends the archive; any other header type (including the
`0x73` main header, whose branch is identical) skips
`header_size - 7` bytes and continues. -/
def walk (b : List Nat) (isFirst : Bool) :
    Nat → Nat → Option (Except ArchiveError (Nat × Nat))
  | 0, _ => none
  | fuel + 1, pos =>
    match readU16le b pos with
    | .error _ => some (.ok (0, 0))
    | .ok (_crc, pos1) =>
      match readU8 b pos1 with
      | .error e => some (.error e)
      | .ok (htype, pos2) =>
        match readU16le b pos2 with
        | .error e => some (.error e)
        | .ok (_flags, pos3) =>
          match readU16le b pos3 with
          | .error e => some (.error e)
          | .ok (hsize, pos4) =>
            if htype = 0x74 then
              match readU32le b pos4 with
              | .error e => some (.error e)
              | .ok (pack, pos5) =>
                match readU32le b pos5 with
                | .error e => some (.error e)
                | .ok (_unpacked, pos6) =>
                  match seekCur pos6 ((hsize : Int) - 7 - 8) with
                  | .error e => some (.error e)
                  | .ok dofs => some (fileTail b isFirst dofs pack)
            else if htype = 0x7B then some (.ok (0, 0))
            else
              match seekCur pos4 ((hsize : Int) - 7) with
              | .error e => some (.error e)
              | .ok pos5 => walk b isFirst fuel pos5

/-- Specification-side mirror of `walk` that stops at the file-header
decision point instead of running `fileTail`: `ok none` when the loop
ended through the end-of-archive header or the end of the readable
headers without meeting a `0x74` file header, `ok (some (dofs, pack))`
when a file header was reached with the cursor at `dofs` and
`pack_size = pack`. -/
def headerScan (b : List Nat) :
    Nat → Nat → Option (Except ArchiveError (Option (Nat × Nat)))
  | 0, _ => none
  | fuel + 1, pos =>
    match readU16le b pos with
    | .error _ => some (.ok none)
    | .ok (_crc, pos1) =>
      match readU8 b pos1 with
      | .error e => some (.error e)
      | .ok (htype, pos2) =>
        match readU16le b pos2 with
        | .error e => some (.error e)
        | .ok (_flags, pos3) =>
          match readU16le b pos3 with
          | .error e => some (.error e)
          | .ok (hsize, pos4) =>
            if htype = 0x74 then
              match readU32le b pos4 with
              | .error e => some (.error e)
              | .ok (pack, pos5) =>
                match readU32le b pos5 with
                | .error e => some (.error e)
                | .ok (_unpacked, pos6) =>
                  match seekCur pos6 ((hsize : Int) - 7 - 8) with
                  | .error e => some (.error e)
                  | .ok dofs => some (.ok (some (dofs, pack)))
            else if htype = 0x7B then some (.ok none)
            else
              match seekCur pos4 ((hsize : Int) - 7) with
              | .error e => some (.error e)
              | .ok pos5 => headerScan b fuel pos5

/-- `analyse_rar_buffer` (src/archive/rar.rs lines 30-93): find the RAR
signature (`MalformedRar` when absent), then walk the headers from the
byte after it. -/
def analyse_rar_buffer (b : List Nat) (isFirst : Bool) :
    Option (Except ArchiveError (Nat × Nat)) :=
  match findWindow RAR_SIGNATURE b with
  | none => some (.error .MalformedRar)
  | some i => walk b isFirst (b.length + 2) (i + 7)

/-- A 28-byte single-volume buffer for the witnesses: the signature, one
file header (`header_size = 15`, `pack_size = 6`), and a 6-byte payload
holding the MKV signature at offset 2. -/
def demoRarBuf : List Nat :=
  RAR_SIGNATURE ++
    [0, 0, 0x74, 0, 0, 15, 0, 6, 0, 0, 0, 0, 0, 0, 0] ++
    [0, 0, 0x1A, 0x45, 0xDF, 0xA3]

end Rar

/-! ## yEnc decoding (src/nntp/yenc.rs)

`YencDecoder::decode_str` works on a `&str`; the text is modelled by its
UTF-8 bytes as a `List Nat`, on which every operation of the source
(prefix tests against ASCII markers, per-byte decoding) acts byte for
byte.
-/

/-- The error enum of src/error.rs, restricted to the one variant the
yEnc decoder produces; its message string is dropped. -/
inductive NzbStreamerError where
  | YencDecoding
deriving DecidableEq, Repr

namespace Yenc

/-- `str::lines`, on bytes: split after every LF (0x0A), strip the LF and
one CR (0x0D) directly before it, keep a final chunk without a line
ending as it is, and produce nothing for empty input.  The accumulator
holds the current line reversed. -/
def linesAux : List Nat → List Nat → List (List Nat)
  | acc, [] => if acc.isEmpty then [] else [acc.reverse]
  | acc, 10 :: rest =>
    (match acc with
     | 13 :: acc2 => acc2.reverse
     | _ => acc.reverse) :: linesAux [] rest
  | acc, c :: rest => linesAux (c :: acc) rest

def lines (text : List Nat) : List (List Nat) := linesAux [] text

/-- `"=ybegin"` -/
def YBEGIN : List Nat := [61, 121, 98, 101, 103, 105, 110]

/-- `"=ypart"` -/
def YPART : List Nat := [61, 121, 112, 97, 114, 116]

/-- `"=yend"` -/
def YEND : List Nat := [61, 121, 101, 110, 100]

/-- The escaped decode of the source:
`((byte as u16).wrapping_sub(64).wrapping_sub(42) & 0xFF) as u8`. -/
def decEsc (c : Nat) : Nat :=
  ((c % 65536 + 65536 - 64) % 65536 + 65536 - 42) % 65536 % 256

/-- The plain decode of the source:
`((byte as u16).wrapping_sub(42) & 0xFF) as u8`. -/
def decPlain (b : Nat) : Nat := (b % 65536 + 65536 - 42) % 65536 % 256

/-- The byte loop of `decode_str` over one line, carrying the escape
flag (which the source deliberately lets survive across lines): an
unescaped `=` (0x3D) sets the flag and emits nothing, CR and LF are
skipped with the flag untouched, and any other byte is decoded by the
escaped or plain rule, clearing the flag. -/
def decodeLine : List Nat → Bool → List Nat × Bool
  | [], esc => ([], esc)
  | c :: rest, esc =>
    if c = 61 ∧ esc = false then decodeLine rest true
    else if c = 13 ∨ c = 10 then decodeLine rest esc
    else
      let d := if esc then decEsc c else decPlain c
      let (out, esc2) := decodeLine rest false
      (d :: out, esc2)

/-- The line loop of `decode_str`: lines starting with `=ypart` are
skipped entirely, every other line is decoded by `decodeLine` with the
escape flag threaded through. -/
def decodeLines : List (List Nat) → Bool → List Nat
  | [], _ => []
  | line :: rest, esc =>
    if YPART.isPrefixOf line then decodeLines rest esc
    else
      let (out, esc2) := decodeLine line esc
      out ++ decodeLines rest esc2

/-- `YencDecoder::decode_str` (src/nntp/yenc.rs lines 15-92): split into
lines, locate the first `=ybegin` and the first `=yend` line (errors when
either is missing or `=ybegin` does not come strictly first), and decode
the lines strictly between them.  `YencHeader::parse` and
`YencFooter::parse` (src/nntp/types.rs) return `Some` exactly when the
respective prefix matches - which holds by construction here - and their
fields feed only debug logging and the non-fatal size warnings, so they
contribute nothing to the embedding.  The final size checks only warn. -/
def decode_str (text : List Nat) : Except NzbStreamerError (List Nat) :=
  let ls := lines text
  match List.findIdx? (fun l => YBEGIN.isPrefixOf l) ls with
  | none => .error .YencDecoding
  | some bi =>
    match List.findIdx? (fun l => YEND.isPrefixOf l) ls with
    | none => .error .YencDecoding
    | some ei =>
      if ei ≤ bi then .error .YencDecoding
      else .ok (decodeLines ((ls.drop (bi + 1)).take (ei - (bi + 1))) false)

/-- The per-byte mapping in the words of the spec, on the concatenation
of the payload lines: an unescaped byte `b` decodes to `(b - 42) mod 256`
(written `(b + 214) % 256` on naturals) and a byte preceded by the escape
character `=` decodes to `(b - 64 - 42) mod 256` (written
`(b + 150) % 256`); CR and LF contribute no output, and the escape
character itself contributes no output. -/
def specDecode : List Nat → Bool → List Nat
  | [], _ => []
  | c :: rest, esc =>
    if c = 61 ∧ esc = false then specDecode rest true
    else if c = 13 ∨ c = 10 then specDecode rest esc
    else (if esc then (c + 150) % 256 else (c + 214) % 256) ::
      specDecode rest false

/-- Byte text of a string (all texts in scope are ASCII). -/
def strBytes (s : String) : List Nat := s.data.map Char.toNat

/-- A concrete yEnc text for the witness:
`=ybegin line=128 size=3 name=t`, payload line `ABC`, `=yend size=3`. -/
def demoYencText : List Nat :=
  strBytes "=ybegin line=128 size=3 name=t\nABC\n=yend size=3"

end Yenc

/-! ## Virtual file streamer (src/stream/virtual_file_streamer.rs)

Paths are irrelevant to the layout computation and modelled as `Nat`
identifiers.  The RAR analysis performed by `mark_file_complete` is file
I/O; its result `(start, length)` enters the embedding as parameters.
-/

/-- The error enum of src/stream/error.rs (payload of `Read` dropped). -/
inductive StreamError where
  | Read
  | FileNotFound (path : Nat)
  | Archive (e : ArchiveError)
deriving DecidableEq, Repr

namespace Vfs

/-- `VolumeSegment` (src/stream/virtual_file_streamer.rs lines 23-30). -/
structure VolumeSegment where
  path : Nat
  start : Nat
  length : Nat
  virtual_start : Nat
  is_complete : Bool
deriving DecidableEq, Repr

/-- The offset-recalculation loop shared by `mark_file_complete` (lines
94-102) and `recalculate_virtual_offsets` (lines 121-130): every segment
receives the running offset as its `virtual_start`, and only complete
segments advance the offset by their length. -/
def recalcAux : Nat → List VolumeSegment → List VolumeSegment
  | _, [] => []
  | offset, s :: rest =>
    { s with virtual_start := offset } ::
      recalcAux (if s.is_complete then offset + s.length else offset) rest

def recalc (segs : List VolumeSegment) : List VolumeSegment := recalcAux 0 segs

/-- `iter_mut().find(...)` followed by the field updates of
`mark_file_complete`: the first segment with the given path becomes
complete and records the analysis result. -/
def updateFirst : List VolumeSegment → Nat → Nat → Nat → List VolumeSegment
  | [], _, _, _ => []
  | s :: rest, path, st, len =>
    if s.path = path then
      { s with start := st, length := len, is_complete := true } :: rest
    else s :: updateFirst rest path st len

/-- `VirtualFileStreamer::mark_file_complete` (src/stream/
virtual_file_streamer.rs lines 76-108): fail with `FileNotFound` when no
segment has the path, otherwise record the analysis result `(st, len)`
in the first matching segment, mark it complete, and recalculate every
`virtual_start`. -/
def mark_file_complete (segs : List VolumeSegment) (path st len : Nat) :
    Except StreamError (List VolumeSegment) :=
  if segs.any (fun s => s.path == path) then
    .ok (recalc (updateFirst segs path st len))
  else .error (.FileNotFound path)

/-- `FileState` (src/stream/orchestrator.rs lines 22-29). -/
structure FileState where
  index : Nat
  path : Nat
  is_complete : Bool
  rar_start : Nat
  rar_length : Nat
deriving DecidableEq, Repr

/-- `FileLayout` as used by the orchestrator (the struct itself is not in
the tree; its four fields are taken from the literal at
src/stream/orchestrator.rs lines 136-141). -/
structure FileLayout where
  path : Nat
  start : Nat
  length : Nat
  virtual_start : Nat
deriving DecidableEq, Repr

/-- The layout construction of `rebuild_layout_if_continuous`: running
virtual offset through the complete prefix, returning the layouts and
the final offset (the stored `available_bytes`). -/
def layoutAux : Nat → List FileState → List FileLayout × Nat
  | offset, [] => ([], offset)
  | offset, s :: rest =>
    let (ls, total) := layoutAux (offset + s.rar_length) rest
    (⟨s.path, s.rar_start, s.rar_length, offset⟩ :: ls, total)

/-- `StreamOrchestrator::rebuild_layout_if_continuous` (src/stream/
orchestrator.rs lines 115-155) on the index-sorted snapshot of the file
states: take the longest complete prefix; when it is empty return `none`
(the source returns early, keeping the previous layout and available
bytes), otherwise build the layout with cumulative offsets and store the
total as the available bytes. -/
def rebuild_layout (states : List FileState) :
    Option (List FileLayout × Nat) :=
  let continuous := states.takeWhile (fun s => s.is_complete)
  if continuous.isEmpty then none
  else some (layoutAux 0 continuous)

/-- The three-volume state of the C8 scenario: volume 0 complete with
payload length 50, volumes 1 and 2 not yet complete (volume 1 having
payload length 100 in its download task, not yet recorded here). -/
def demoSegs : List VolumeSegment :=
  [⟨0, 7, 50, 0, true⟩, ⟨1, 0, 0, 0, false⟩, ⟨2, 0, 0, 0, false⟩]

/-- The state after marking volume 2 (payload 70 at start 7) complete in
`demoSegs`. -/
def demoSegsAfter : List VolumeSegment :=
  [⟨0, 7, 50, 0, true⟩, ⟨1, 0, 0, 50, false⟩, ⟨2, 7, 70, 50, true⟩]

end Vfs

/-! ## HTTP range handling (src/http/range.rs)

The header value is modelled as a `List Char` (the `to_str` validation
and the `HeaderMap` lookup happen before the cited code runs); status
codes are their numeric values.
-/

namespace Http

/-- `RangeRequest` (src/http/range.rs lines 4-8); the Rust field `end`
is a Lean keyword and is called `endPos` here. -/
structure RangeRequest where
  start : Nat
  endPos : Option Nat
deriving DecidableEq, Repr

def isDigitChar (c : Char) : Bool := 48 ≤ c.toNat && c.toNat ≤ 57

/-- ASCII whitespace for `str::trim` (the full Unicode set is irrelevant
to header values). -/
def isSpaceChar (c : Char) : Bool :=
  c = ' ' || c = '\t' || c = '\n' || c = '\r'

def trimChars (l : List Char) : List Char :=
  ((l.dropWhile isSpaceChar).reverse.dropWhile isSpaceChar).reverse

def digitsVal (l : List Char) : Nat :=
  l.foldl (fun a c => a * 10 + (c.toNat - 48)) 0

/-- `u64::from_str`: an optional leading `+`, then one or more ASCII
digits, failing on overflow past `2^64 - 1`. -/
def parseU64 (l : List Char) : Option Nat :=
  let ds := match l with
    | '+' :: rest => rest
    | _ => l
  if ¬ ds.isEmpty ∧ ds.all isDigitChar = true ∧ digitsVal ds < 2 ^ 64 then
    some (digitsVal ds)
  else none

/-- `range_spec.split(',').next()`: the characters before the first
comma. -/
def firstSplit (l : List Char) : List Char :=
  l.takeWhile (fun c => c ≠ ',')

/-- `split_once('-')`. -/
def splitOnceDash (l : List Char) : Option (List Char × List Char) :=
  if l.any (fun c => c = '-') then
    some (l.takeWhile (fun c => c ≠ '-'),
      (l.dropWhile (fun c => c ≠ '-')).tail)
  else none

/-- `"bytes="` -/
def BYTES_EQ : List Char := ['b', 'y', 't', 'e', 's', '=']

/-- `RangeRequest::parse_range_header` (src/http/range.rs lines 11-64):
absent header parses to `none`; a header not starting with `bytes=` or
with malformed numbers is a 400; a suffix range `-k` starts at
`content_length.saturating_sub(k)` with an open end; then the common
validation rejects `start ≥ content_length` and, for a bounded range,
`end ≥ content_length` or `start > end`, with 416. -/
def parse_range_header (rangeHeader : Option (List Char))
    (content_length : Nat) : Except Nat (Option RangeRequest) :=
  match rangeHeader with
  | none => .ok none
  | some range_str =>
    if ¬ BYTES_EQ.isPrefixOf range_str then .error 400
    else
      let range_spec := range_str.drop 6
      let first_range := trimChars (firstSplit range_spec)
      match splitOnceDash first_range with
      | none => .error 400
      | some (s0, e0) =>
        let start_str := trimChars s0
        let end_str := trimChars e0
        let parsed : Except Nat (Nat × Option Nat) :=
          if start_str.isEmpty then
            match parseU64 end_str with
            | none => .error 400
            | some suffix => .ok (content_length - suffix, none)
          else
            match parseU64 start_str with
            | none => .error 400
            | some start =>
              if end_str.isEmpty then .ok (start, none)
              else
                match parseU64 end_str with
                | none => .error 400
                | some e => .ok (start, some e)
        match parsed with
        | .error c => .error c
        | .ok (start, endPos) =>
          if content_length ≤ start then .error 416
          else
            match endPos with
            | some ep =>
              if content_length ≤ ep ∨ ep < start then .error 416
              else .ok (some ⟨start, some ep⟩)
            | none => .ok (some ⟨start, none⟩)

/-- Modelled from the spec: the HTTP stream route.  src/http/mod.rs
declares `pub mod routes` and `pub mod server`, but http/routes.rs and
http/server.rs are missing from the tree, so the handler that combines
`parse_range_header` with the availability check is reconstructed from
the spec sections 4.F, 6 and 8: parse the Range header against the
virtual stream size; propagate the parser status codes (400 for
malformed headers, 416 for clearly invalid ranges); answer 503 with
Retry-After when a parsed range starts at or beyond the available bytes
(a not-yet-downloaded hole) or when a whole-file request arrives while
zero bytes are available; otherwise serve 206 for ranges and 200 for
whole files. -/
def stream_route (rangeHeader : Option (List Char))
    (available total : Nat) : Nat :=
  match parse_range_header rangeHeader total with
  | .error code => code
  | .ok none => if available = 0 then 503 else 200
  | .ok (some r) => if available ≤ r.start then 503 else 206

end Http

end NzbStreamer

namespace NzbStreamer

/-! # Theorems -/

/-! ## C1: buffer health -/

/-- C1, counterexample.  The claim says `health = Critical` implies
`ahead ≤ 5 percent of remaining`.  Take the orchestrator state with playback
position 0 and 2 complete files out of 2 total: every byte ahead of playback
is available (`ahead = remaining`, a 100 percent ratio, here 2 units each),
yet `get_buffer_health` reports `Critical` because it only looks at the
absolute count `complete - playback = 2 ≤ 2`.  So Critical does not imply
`100 * ahead ≤ 5 * remaining`. -/
theorem c1_health_ratio_counterexample :
    StreamOrchestrator.get_buffer_health 0 2 = BufferHealth.Critical ∧
    ¬ (100 * 2 ≤ 5 * 2) := by
  constructor
  · rfl
  · decide

/-- C1, amended.  Buffer health is not derived from the ratio
`ahead / remaining`: both implementations classify the absolute count
`complete - playback` (respectively `available - playback`), saturating at
zero.  The orchestrator uses the thresholds 0-2 Critical, 3-5 Poor,
6-10 Good, above 10 Excellent; the segment tracker uses 0-10 Critical,
11-50 Poor, 51-200 Good, above 200 Excellent. -/
theorem c1_health_thresholds (playback complete available : Nat) :
    (StreamOrchestrator.get_buffer_health playback complete = .Critical ↔
      complete - playback ≤ 2) ∧
    (StreamOrchestrator.get_buffer_health playback complete = .Poor ↔
      3 ≤ complete - playback ∧ complete - playback ≤ 5) ∧
    (StreamOrchestrator.get_buffer_health playback complete = .Good ↔
      6 ≤ complete - playback ∧ complete - playback ≤ 10) ∧
    (StreamOrchestrator.get_buffer_health playback complete = .Excellent ↔
      11 ≤ complete - playback) ∧
    (SegmentTracker.get_buffer_health playback available = .Critical ↔
      available - playback ≤ 10) ∧
    (SegmentTracker.get_buffer_health playback available = .Poor ↔
      11 ≤ available - playback ∧ available - playback ≤ 50) ∧
    (SegmentTracker.get_buffer_health playback available = .Good ↔
      51 ≤ available - playback ∧ available - playback ≤ 200) ∧
    (SegmentTracker.get_buffer_health playback available = .Excellent ↔
      201 ≤ available - playback) := by
  unfold StreamOrchestrator.get_buffer_health SegmentTracker.get_buffer_health
  dsimp only
  refine ⟨?_, ?_, ?_, ?_, ?_, ?_, ?_, ?_⟩ <;>
    split_ifs <;> simp_all <;> omega

/-! ## C4: RarExt ordering -/

/-- C4.  `RarExt.cmp` is a strict total order with `Main` below every
`Part p` and `Part p` below `Part q` exactly when `p < q`; together with
totality (trichotomy via the `eq` and `lt`/`gt` characterisations) and
transitivity this is what makes sorting the download tasks by this key put
the bare `.rar` volume first and the `.rNN` volumes after it in increasing
numeric order. -/
theorem c4_rarext_cmp_total_order :
    (∀ p, RarExt.cmp .Main (.Part p) = .lt) ∧
    (∀ p q, RarExt.cmp (.Part p) (.Part q) = .lt ↔ p < q) ∧
    (∀ x y, RarExt.cmp x y = .eq ↔ x = y) ∧
    (∀ x y, RarExt.cmp x y = .lt ↔ RarExt.cmp y x = .gt) ∧
    (∀ x y z, RarExt.cmp x y = .lt → RarExt.cmp y z = .lt →
      RarExt.cmp x z = .lt) := by
  refine ⟨fun p => rfl, fun p q => ?_, fun x y => ?_, fun x y => ?_,
    fun x y z => ?_⟩
  · simp [RarExt.cmp, Nat.compare_eq_lt]
  · cases x <;> cases y <;>
      simp [RarExt.cmp, Nat.compare_eq_eq, Nat.compare_eq_lt,
        Nat.compare_eq_gt]
  · cases x <;> cases y <;>
      simp [RarExt.cmp, Nat.compare_eq_lt, Nat.compare_eq_gt]
  · cases x <;> cases y <;> cases z <;>
      simp [RarExt.cmp, Nat.compare_eq_lt] <;> omega

/-- C4, witness: the order facts instantiated at `Main`, `Part 0`,
`Part 1`. -/
theorem c4_rarext_cmp_total_order_witness :
    RarExt.cmp .Main (.Part 0) = .lt ∧ RarExt.cmp (.Part 0) (.Part 1) = .lt :=
  ⟨c4_rarext_cmp_total_order.1 0,
    (c4_rarext_cmp_total_order.2.1 0 1).mpr (by decide)⟩

/-! ## C2, C3: PAR2 parse results -/

namespace Par2

theorem insertFile_ne_nil (m : List (List Nat × FileInfo)) (k : List Nat)
    (v : FileInfo) : insertFile m k v ≠ [] := by
  cases m with
  | nil => simp [insertFile]
  | cons hd tl =>
    obtain ⟨k0, v0⟩ := hd
    simp only [insertFile]
    split_ifs <;> simp

theorem lookupFile_insertFile (m : List (List Nat × FileInfo))
    (k k2 : List Nat) (v : FileInfo) :
    lookupFile (insertFile m k v) k2 =
      if k = k2 then some v else lookupFile m k2 := by
  induction m with
  | nil =>
    by_cases h : k = k2 <;> simp [insertFile, lookupFile, h]
  | cons hd tl ih =>
    obtain ⟨k0, v0⟩ := hd
    by_cases h0 : k0 = k
    · subst h0
      by_cases h2 : k0 = k2 <;> simp [insertFile, lookupFile, h2]
    · by_cases h2 : k0 = k2
      · subst h2
        have : k ≠ k0 := fun h => h0 h.symm
        simp [insertFile, lookupFile, h0, this]
      · simp [insertFile, lookupFile, h0, h2, ih]

theorem foldl_filesStep_ne_nil (ps : List Packet)
    (m : List (List Nat × FileInfo)) (hm : m ≠ []) :
    ps.foldl filesStep m ≠ [] := by
  induction ps generalizing m with
  | nil => simpa using hm
  | cons p ps ih =>
    simp only [List.foldl_cons]
    apply ih
    cases p with
    | FileDesc d => exact insertFile_ne_nil _ _ _
    | Main q => simpa [filesStep] using hm
    | IFSC q => simpa [filesStep] using hm

theorem foldl_filesStep_no_desc (ps : List Packet)
    (m : List (List Nat × FileInfo))
    (h : ∀ p ∈ ps, p.isFileDesc = false) :
    ps.foldl filesStep m = m := by
  induction ps generalizing m with
  | nil => rfl
  | cons p ps ih =>
    have hp := h p (by simp)
    have hrest : ∀ q ∈ ps, q.isFileDesc = false := fun q hq => h q (by simp [hq])
    cases p with
    | FileDesc d => simp [Packet.isFileDesc] at hp
    | Main q => simpa [filesStep] using ih m hrest
    | IFSC q => simpa [filesStep] using ih m hrest

theorem lastFileDescFor_acc (ps : List Packet) (k : List Nat)
    (acc : Option FileDescPacket) :
    ps.foldl (lastStep k) acc =
    match lastFileDescFor ps k with
    | some d => some d
    | none => acc := by
  induction ps generalizing acc with
  | nil => simp [lastFileDescFor]
  | cons p ps ih =>
    simp only [lastFileDescFor, List.foldl_cons] at *
    rw [ih (lastStep k acc p), ih (lastStep k none p)]
    cases hx : ps.foldl (lastStep k) none with
    | some d2 => simp
    | none =>
      cases p with
      | FileDesc d =>
        by_cases h : d.filename = k <;> simp [lastStep, h]
      | Main q => simp [lastStep]
      | IFSC q => simp [lastStep]

theorem lastFileDescFor_cons (p : Packet) (ps : List Packet) (k : List Nat) :
    lastFileDescFor (p :: ps) k =
      match lastFileDescFor ps k with
      | some d2 => some d2
      | none => lastStep k none p := by
  simp only [lastFileDescFor, List.foldl_cons]
  exact lastFileDescFor_acc ps k (lastStep k none p)

theorem lookupFile_foldl_filesStep (ps : List Packet)
    (m : List (List Nat × FileInfo)) (k : List Nat) :
    lookupFile (ps.foldl filesStep m) k =
      match lastFileDescFor ps k with
      | some d => some ⟨d.filename, d.hash16k⟩
      | none => lookupFile m k := by
  induction ps generalizing m with
  | nil => simp [lastFileDescFor]
  | cons p ps ih =>
    rw [List.foldl_cons, ih, lastFileDescFor_cons]
    cases hl : lastFileDescFor ps k with
    | some d2 => simp
    | none =>
      cases p with
      | FileDesc d =>
        simp only [filesStep, lastStep]
        rw [lookupFile_insertFile]
        by_cases h : d.filename = k <;> simp [h]
      | Main q => simp [filesStep, lastStep]
      | IFSC q => simp [filesStep, lastStep]

theorem foldl_filesStep_nil_iff (ps : List Packet) :
    ps.foldl filesStep [] = [] ↔ ∀ p ∈ ps, p.isFileDesc = false := by
  constructor
  · intro h p hp
    by_contra hdesc
    cases p with
    | FileDesc d =>
      obtain ⟨l1, l2, rfl⟩ := List.append_of_mem hp
      rw [List.foldl_append] at h
      simp only [List.foldl_cons, filesStep] at h
      exact foldl_filesStep_ne_nil _ _ (insertFile_ne_nil _ _ _) h
    | Main q => simp [Packet.isFileDesc] at hdesc
    | IFSC q => simp [Packet.isFileDesc] at hdesc
  · intro h
    exact foldl_filesStep_no_desc ps [] h

theorem parse_buffer_noFiles_iff (buffer : List Nat) :
    parse_buffer buffer = .error .NoFiles ↔
      ∀ p ∈ scan_for_packets buffer, p.isFileDesc = false := by
  unfold parse_buffer
  by_cases h : (scan_for_packets buffer).foldl filesStep [] = []
  · simp only [h, List.isEmpty_nil, if_pos rfl]
    rw [foldl_filesStep_nil_iff] at h
    exact iff_of_true rfl h
  · have : ((scan_for_packets buffer).foldl filesStep []).isEmpty = false := by
      simpa [List.isEmpty_iff] using h
    simp only [this, Bool.false_eq_true, if_false]
    rw [foldl_filesStep_nil_iff] at h
    constructor
    · intro hcontra
      simp at hcontra
    · intro hall
      exact absurd hall h

theorem parse_buffer_ok_of_desc (buffer : List Nat) (d : FileDescPacket)
    (hd : Packet.FileDesc d ∈ scan_for_packets buffer) :
    ∃ m, parse_buffer buffer = .ok m ∧
      ∃ d2, lastFileDescFor (scan_for_packets buffer) d.filename = some d2 ∧
        lookupFile m.files d.filename = some ⟨d2.filename, d2.hash16k⟩ := by
  have hne : (scan_for_packets buffer).foldl filesStep [] ≠ [] := by
    intro hnil
    rw [foldl_filesStep_nil_iff] at hnil
    have := hnil _ hd
    simp [Packet.isFileDesc] at this
  refine ⟨⟨(scan_for_packets buffer).foldl filesStep []⟩, ?_, ?_⟩
  · unfold parse_buffer
    have : ((scan_for_packets buffer).foldl filesStep []).isEmpty = false := by
      simpa [List.isEmpty_iff] using hne
    simp [this]
  · have hlast : ∃ d2,
        lastFileDescFor (scan_for_packets buffer) d.filename = some d2 := by
      obtain ⟨l1, l2, hsplit⟩ := List.append_of_mem hd
      rw [hsplit]
      unfold lastFileDescFor
      rw [List.foldl_append, List.foldl_cons,
        lastFileDescFor_acc l2 d.filename]
      cases hl : lastFileDescFor l2 d.filename with
      | some d2 => exact ⟨d2, rfl⟩
      | none => exact ⟨d, by simp [lastStep]⟩
    obtain ⟨d2, hd2⟩ := hlast
    refine ⟨d2, hd2, ?_⟩
    rw [lookupFile_foldl_filesStep, hd2]

/-- C2.  `parse_buffer` fails with `NoFiles` exactly when the packet scan
produced no FileDesc packet (in particular the empty buffer yields
`NoFiles`), and whenever some FileDesc packet was parsed the manifest is
returned with an entry for each parsed filename (carrying the hash of the
last FileDesc packet with that filename, as `HashMap::insert` overwrites). -/
theorem c2_parse_buffer_noFiles (buffer : List Nat) :
    (parse_buffer buffer = .error .NoFiles ↔
      ∀ p ∈ scan_for_packets buffer, p.isFileDesc = false) ∧
    (∀ d, Packet.FileDesc d ∈ scan_for_packets buffer →
      ∃ m, parse_buffer buffer = .ok m ∧
        ∃ d2, lastFileDescFor (scan_for_packets buffer) d.filename = some d2 ∧
          lookupFile m.files d.filename = some ⟨d2.filename, d2.hash16k⟩) ∧
    parse_buffer [] = .error .NoFiles :=
  ⟨parse_buffer_noFiles_iff buffer,
    fun d hd => parse_buffer_ok_of_desc buffer d hd,
    (parse_buffer_noFiles_iff []).mpr (by simp [scan_for_packets, scanAux])⟩

/-- C2, witness: the empty buffer fails with `NoFiles`, by the theorem
itself applied at the empty list. -/
theorem c2_parse_buffer_noFiles_witness :
    parse_buffer [] = .error .NoFiles :=
  (c2_parse_buffer_noFiles []).2.2

/-- C3.  When the scan produced at least one FileDesc packet and no Main
packet at all, `parse_buffer` still succeeds: the missing Main packet is
only warned about (the `warn!` call in the source), never turned into an
error. -/
theorem c3_missing_main_only_warns (buffer : List Nat)
    (hdesc : (scan_for_packets buffer).any Packet.isFileDesc = true)
    (_hnomain : ∀ p ∈ scan_for_packets buffer, p.isMain = false) :
    ∃ m, parse_buffer buffer = .ok m := by
  rw [List.any_eq_true] at hdesc
  obtain ⟨p, hp, hdesc⟩ := hdesc
  cases p with
  | FileDesc d =>
    obtain ⟨m, hm, -⟩ := parse_buffer_ok_of_desc buffer d hp
    exact ⟨m, hm⟩
  | Main q => simp [Packet.isFileDesc] at hdesc
  | IFSC q => simp [Packet.isFileDesc] at hdesc

/-- C3, witness: a concrete buffer with one FileDesc packet and no Main
packet parses successfully. -/
theorem c3_missing_main_only_warns_witness :
    ∃ m, parse_buffer demoFileDescBuf = .ok m :=
  c3_missing_main_only_warns demoFileDescBuf (by decide) (by decide)

end Par2

/-! ## C5, C6, C10: the RAR analyser -/

namespace Rar

theorem walk_eq_headerScan (b : List Nat) (isFirst : Bool) :
    ∀ fuel pos, walk b isFirst fuel pos =
      match headerScan b fuel pos with
      | none => none
      | some (.error e) => some (.error e)
      | some (.ok none) => some (.ok (0, 0))
      | some (.ok (some (dofs, pack))) =>
          some (fileTail b isFirst dofs pack) := by
  intro fuel
  induction fuel with
  | zero => intro pos; simp [walk, headerScan]
  | succ fuel ih =>
    intro pos
    simp only [walk, headerScan]
    cases h1 : readU16le b pos with
    | error e => simp [h1]
    | ok p =>
      obtain ⟨crc, pos1⟩ := p
      cases h2 : readU8 b pos1 with
      | error e => simp [h1, h2]
      | ok p =>
        obtain ⟨htype, pos2⟩ := p
        cases h3 : readU16le b pos2 with
        | error e => simp [h1, h2, h3]
        | ok p =>
          obtain ⟨flags, pos3⟩ := p
          cases h4 : readU16le b pos3 with
          | error e => simp [h1, h2, h3, h4]
          | ok p =>
            obtain ⟨hsize, pos4⟩ := p
            by_cases h74 : htype = 0x74
            · cases h5 : readU32le b pos4 with
              | error e => simp [h1, h2, h3, h4, h74, h5]
              | ok p =>
                obtain ⟨pack, pos5⟩ := p
                cases h6 : readU32le b pos5 with
                | error e => simp [h1, h2, h3, h4, h74, h5, h6]
                | ok p =>
                  obtain ⟨unpacked, pos6⟩ := p
                  cases h7 : seekCur pos6 ((hsize : Int) - 7 - 8) with
                  | error e => simp [h1, h2, h3, h4, h74, h5, h6, h7]
                  | ok dofs => simp [h1, h2, h3, h4, h74, h5, h6, h7]
            · by_cases h7B : htype = 0x7B
              · simp [h1, h2, h3, h4, h74, h7B]
              · cases h8 : seekCur pos4 ((hsize : Int) - 7) with
                | error e => simp [h1, h2, h3, h4, h74, h7B, h8]
                | ok pos5 =>
                  simp only [h1, h2, h3, h4, if_neg h74, if_neg h7B, h8]
                  exact ih pos5

theorem isPrefixOf_iff_take (pat l : List Nat) :
    pat.isPrefixOf l = true ↔ l.take pat.length = pat := by
  induction pat generalizing l with
  | nil => simp [List.isPrefixOf]
  | cons a pat ih =>
    cases l with
    | nil => simp [List.isPrefixOf]
    | cons x l =>
      simp only [List.isPrefixOf, List.length_cons, List.take_succ_cons,
        List.cons.injEq, Bool.and_eq_true, beq_iff_eq]
      rw [ih]
      constructor
      · rintro ⟨rfl, h⟩; exact ⟨rfl, h⟩
      · rintro ⟨rfl, h⟩; exact ⟨rfl, h⟩

theorem findWindow_eq_none (pat : List Nat) (hp : pat ≠ []) :
    ∀ l : List Nat, (∀ i < l.length, (l.drop i).take pat.length ≠ pat) →
      findWindow pat l = none := by
  intro l
  induction l with
  | nil =>
    intro _
    have : pat.length ≠ 0 := by simpa [List.length_eq_zero] using hp
    simp [findWindow, this]
  | cons x rest ih =>
    intro h
    simp only [findWindow]
    split_ifs with hlen hpre
    · exfalso
      have h0 := h 0 (by simp)
      rw [isPrefixOf_iff_take] at hpre
      exact h0 (by simpa using hpre)
    · have hrest : findWindow pat rest = none := by
        apply ih
        intro i hi
        have := h (i + 1) (by simpa using Nat.succ_lt_succ hi)
        simpa using this
      simp [hrest]
    · rfl

theorem walk_io_truncated (b : List Nat) (f : Bool) (pos fuel : Nat)
    (h1 : pos + 2 ≤ b.length) (h2 : b.length < pos + 3) :
    walk b f (fuel + 1) pos = some (.error .Io) := by
  have e1 : readU16le b pos =
      .ok (b.getD pos 0 + 256 * b.getD (pos + 1) 0, pos + 2) := by
    rw [readU16le, if_pos h1]
  have e2 : readU8 b (pos + 2) = .error .Io := by
    rw [readU8, if_neg (by omega)]
  simp only [walk, e1, e2]

/-- C5.  Let the header walk of a buffer reach a file header: running the
analyser with `is_first = false` returns exactly the header-derived pair
`(o, l)` = (position after the file header, `pack_size`), with `0 < o`
characterising that a file header was reached (both clean loop exits
return `(0, 0)` and any header position is at least 7).  If additionally
the first `min 1024 l` payload bytes are present in the buffer and the
MKV signature first occurs at offset `k` inside them, the `is_first =
true` run returns the payload offset advanced by `k` and the payload
length reduced by `k`. -/
theorem c5_first_volume_mkv_adjustment (b : List Nat) (o l k : Nat)
    (hrun : analyse_rar_buffer b false = some (.ok (o, l)))
    (ho : 0 < o)
    (hn : 0 < min 1024 l)
    (hwin : o + min 1024 l ≤ b.length)
    (hfind : findWindow MKV_SIGNATURE ((b.drop o).take (min 1024 l)) = some k) :
    analyse_rar_buffer b true = some (.ok (o + k, l - k)) := by
  unfold analyse_rar_buffer at hrun ⊢
  cases hsig : findWindow RAR_SIGNATURE b with
  | none => rw [hsig] at hrun; simp at hrun
  | some i =>
    rw [hsig] at hrun
    have hrun2 : walk b false (b.length + 2) (i + 7) = some (.ok (o, l)) :=
      hrun
    show walk b true (b.length + 2) (i + 7) = some (.ok (o + k, l - k))
    rw [walk_eq_headerScan] at hrun2 ⊢
    cases hscan : headerScan b (b.length + 2) (i + 7) with
    | none => rw [hscan] at hrun2; simp at hrun2
    | some r =>
      rw [hscan] at hrun2
      cases r with
      | error e => simp at hrun2
      | ok info =>
        cases info with
        | none =>
          have h3 : some (Except.ok ((0 : Nat), (0 : Nat))) =
              some (Except.ok (o, l)) := hrun2
          simp only [Option.some.injEq, Except.ok.injEq,
            Prod.mk.injEq] at h3
          omega
        | some dp =>
          obtain ⟨dofs, pack⟩ := dp
          have h3 : some (fileTail b false dofs pack) =
              some (Except.ok (o, l)) := hrun2
          simp only [fileTail, Bool.false_eq_true, if_false,
            Option.some.injEq, Except.ok.injEq, Prod.mk.injEq] at h3
          obtain ⟨rfl, rfl⟩ := h3
          show some (fileTail b true dofs pack) =
            some (Except.ok (dofs + k, pack - k))
          unfold fileTail
          rw [if_pos rfl]
          dsimp only
          rw [if_neg (by omega), if_pos hwin, hfind]

/-- C5, witness: on a concrete 28-byte volume whose file header puts the
payload at offset 22 with `pack_size = 6` and whose payload holds the MKV
signature at offset 2, the first-volume analysis returns `(24, 4)`. -/
theorem c5_first_volume_mkv_adjustment_witness :
    analyse_rar_buffer demoRarBuf true = some (.ok (24, 4)) :=
  c5_first_volume_mkv_adjustment demoRarBuf 22 6 2 rfl (by decide)
    (by decide) (by decide) (by decide)

/-- C6, counterexample.  The claim says a buffer too short to parse its
headers surfaces as `MalformedRar`.  The 9-byte buffer made of the RAR
signature followed by two bytes is too short to hold any header (a header
needs 7 bytes), yet the analyser fails with the I/O error raised by the
failing `read_u8`, not with `MalformedRar`. -/
theorem c6_short_header_counterexample :
    analyse_rar_buffer (RAR_SIGNATURE ++ [0, 0]) true =
      some (.error .Io) ∧
    ArchiveError.Io ≠ ArchiveError.MalformedRar := by
  constructor
  · rfl
  · decide

/-- C6, amended.  A buffer in which the 7-byte RAR signature does not
occur fails with `MalformedRar` (and the embedding is a total function:
no input panics); a buffer that contains the signature but is truncated
in the middle of a header surfaces as an I/O error, not as
`MalformedRar` (shown for every buffer with exactly two bytes after the
signature, where the first header read succeeds and the header-type read
fails). -/
theorem c6_malformed_rar (b : List Nat) (f : Bool) (extra : List Nat)
    (f2 : Bool)
    (hnosig : ∀ i < b.length, (b.drop i).take 7 ≠ RAR_SIGNATURE)
    (hextra : extra.length = 2) :
    analyse_rar_buffer b f = some (.error .MalformedRar) ∧
    analyse_rar_buffer (RAR_SIGNATURE ++ extra) f2 = some (.error .Io) := by
  constructor
  · unfold analyse_rar_buffer
    rw [findWindow_eq_none RAR_SIGNATURE (by decide) b hnosig]
  · obtain ⟨e1, e2, rfl⟩ : ∃ e1 e2, extra = [e1, e2] := by
      cases extra with
      | nil => simp at hextra
      | cons e1 rest =>
        cases rest with
        | nil => simp at hextra
        | cons e2 rest2 =>
          cases rest2 with
          | nil => exact ⟨e1, e2, rfl⟩
          | cons e3 rest3 => simp at hextra
    unfold analyse_rar_buffer
    have hfind : findWindow RAR_SIGNATURE (RAR_SIGNATURE ++ [e1, e2]) =
        some 0 := by
      simp [RAR_SIGNATURE, findWindow, List.isPrefixOf]
    rw [hfind]
    show walk (RAR_SIGNATURE ++ [e1, e2]) f2
      ((RAR_SIGNATURE ++ [e1, e2]).length + 2) (0 + 7) = some (.error .Io)
    have hlen : (RAR_SIGNATURE ++ [e1, e2]).length = 9 := by
      simp [RAR_SIGNATURE]
    exact walk_io_truncated _ f2 (0 + 7)
      ((RAR_SIGNATURE ++ [e1, e2]).length + 1) (by omega) (by omega)

/-- C6, witness: the amended theorem at the concrete inputs `[0, 0, 0]`
(no signature anywhere) and the signature followed by `[9, 9]`. -/
theorem c6_malformed_rar_witness :
    analyse_rar_buffer [0, 0, 0] true = some (.error .MalformedRar) ∧
    analyse_rar_buffer (RAR_SIGNATURE ++ [9, 9]) false =
      some (.error .Io) := by
  have h := c6_malformed_rar [0, 0, 0] true [9, 9] false (by decide) (by decide)
  exact ⟨h.1, h.2⟩

/-- C10.  When the buffer contains the RAR signature and the header walk
starting after it ends through an end-of-archive header (type 0x7B) or
the end of the readable headers without meeting a file header (type
0x74) - the `headerScan` mirror of the loop returning `ok none` - the
analyser succeeds with `payload_offset = 0` and `payload_length = 0`
instead of reporting an error. -/
theorem c10_no_file_header_zero_payload (b : List Nat) (f : Bool) (i : Nat)
    (hsig : findWindow RAR_SIGNATURE b = some i)
    (hclean : headerScan b (b.length + 2) (i + 7) = some (.ok none)) :
    analyse_rar_buffer b f = some (.ok (0, 0)) := by
  unfold analyse_rar_buffer
  rw [hsig]
  show walk b f (b.length + 2) (i + 7) = some (.ok (0, 0))
  rw [walk_eq_headerScan, hclean]

/-- C10, witness: the bare 7-byte signature, whose header walk stops at
once because fewer than two readable bytes remain. -/
theorem c10_no_file_header_zero_payload_witness :
    analyse_rar_buffer RAR_SIGNATURE true = some (.ok (0, 0)) :=
  c10_no_file_header_zero_payload RAR_SIGNATURE true 0 (by decide) rfl

end Rar

/-! ## C7: yEnc decoding -/

namespace Yenc

theorem decEsc_eq (c : Nat) : decEsc c = (c + 150) % 256 := by
  unfold decEsc
  omega

theorem decPlain_eq (b : Nat) : decPlain b = (b + 214) % 256 := by
  unfold decPlain
  omega

theorem specDecode_append (l : List Nat) :
    ∀ (rest : List Nat) (esc : Bool),
      specDecode (l ++ rest) esc =
        (decodeLine l esc).1 ++ specDecode rest (decodeLine l esc).2 := by
  induction l with
  | nil => intro rest esc; simp [decodeLine]
  | cons c l ih =>
    intro rest esc
    by_cases h61 : c = 61 ∧ esc = false
    · simp only [List.cons_append, specDecode, decodeLine, if_pos h61]
      exact ih rest true
    · by_cases hnl : c = 13 ∨ c = 10
      · simp only [List.cons_append, specDecode, decodeLine, if_neg h61,
          if_pos hnl]
        exact ih rest esc
      · have hd : (if esc = true then decEsc c else decPlain c) =
            (if esc = true then (c + 150) % 256 else (c + 214) % 256) := by
          cases esc <;> simp [decEsc_eq, decPlain_eq]
        simp only [List.cons_append, specDecode, decodeLine, if_neg h61,
          if_neg hnl, List.append_eq]
        rw [ih rest false]
        cases hdl : decodeLine l false with
        | mk out esc2 => simp [hdl, hd]

theorem decodeLines_eq_specDecode (ls : List (List Nat)) :
    ∀ esc : Bool,
      decodeLines ls esc =
        specDecode ((ls.filter (fun l => ! YPART.isPrefixOf l)).flatten)
          esc := by
  induction ls with
  | nil => intro esc; simp [decodeLines, specDecode]
  | cons line rest ih =>
    intro esc
    by_cases hp : YPART.isPrefixOf line
    · simp only [decodeLines, if_pos hp, List.filter_cons,
        Bool.not_eq_true', hp]
      simpa using ih esc
    · have hp2 : (! YPART.isPrefixOf line) = true := by
        simp [hp]
      cases hdl : decodeLine line esc with
      | mk out esc2 =>
        simp only [decodeLines, if_neg hp, List.filter_cons, hp2, if_true,
          List.flatten_cons, hdl]
        rw [specDecode_append, hdl, ih]

/-- C7.  For every yEnc text whose first `=ybegin` line comes strictly
before its first `=yend` line, `decode_str` succeeds and its output is
exactly the per-byte decoding, in the formulas of the spec, of the
concatenation of the payload lines (the lines strictly between the two
markers, with `=ypart` lines removed): unescaped `b` decodes to
`(b - 42) mod 256`, a byte preceded by `=` decodes to
`(b - 64 - 42) mod 256`, and CR, LF and the escape byte itself
contribute no output. -/
theorem c7_yenc_decode_spec (text : List Nat) (bi ei : Nat)
    (hb : List.findIdx? (fun l => YBEGIN.isPrefixOf l) (lines text) = some bi)
    (he : List.findIdx? (fun l => YEND.isPrefixOf l) (lines text) = some ei)
    (hlt : bi < ei) :
    decode_str text = .ok (specDecode
      (((((lines text).drop (bi + 1)).take (ei - (bi + 1))).filter
        (fun l => ! YPART.isPrefixOf l)).flatten) false) := by
  simp only [decode_str, hb, he]
  rw [if_neg (by omega), decodeLines_eq_specDecode]

/-- C7, witness: a three-line yEnc text with payload `ABC` decodes to
the three bytes 23, 24, 25. -/
theorem c7_yenc_decode_spec_witness :
    decode_str demoYencText = .ok [23, 24, 25] :=
  (c7_yenc_decode_spec demoYencText 0 2 (by decide) (by decide)
    (by decide)).trans rfl

end Yenc

/-! ## C8: virtual-stream offsets -/

namespace Vfs

/-- The offset contribution of a segment in the recalculation loop. -/
theorem recalcAux_getElem (segs : List VolumeSegment) :
    ∀ (off k : Nat) (s2 : VolumeSegment),
      (recalcAux off segs)[k]? = some s2 →
      s2.virtual_start = off +
        (((segs.take k).map
          (fun s => if s.is_complete then s.length else 0)).sum) := by
  induction segs with
  | nil => intro off k s2 h; simp [recalcAux] at h
  | cons s rest ih =>
    intro off k s2 h
    cases k with
    | zero =>
      simp only [recalcAux, List.getElem?_cons_zero, Option.some.injEq] at h
      subst h
      simp
    | succ k =>
      simp only [recalcAux, List.getElem?_cons_succ] at h
      have := ih (if s.is_complete then off + s.length else off) k s2 h
      rw [this]
      cases hc : s.is_complete <;>
        simp [hc, List.take_succ_cons, Nat.add_assoc]

theorem recalcAux_fields (segs : List VolumeSegment) :
    ∀ off : Nat,
      (recalcAux off segs).map (fun s => (s.length, s.is_complete)) =
        segs.map (fun s => (s.length, s.is_complete)) := by
  induction segs with
  | nil => intro off; simp [recalcAux]
  | cons s rest ih => intro off; simp [recalcAux, ih]

theorem updateFirst_invariant (segs : List VolumeSegment)
    (path st len : Nat)
    (hzero : ∀ s ∈ segs, s.is_complete = false → s.length = 0) :
    ∀ s ∈ updateFirst segs path st len,
      s.is_complete = false → s.length = 0 := by
  induction segs with
  | nil => intro s hs; simp [updateFirst] at hs
  | cons s0 rest ih =>
    intro s hs
    simp only [updateFirst] at hs
    by_cases hp : s0.path = path
    · rw [if_pos hp] at hs
      rcases List.mem_cons.mp hs with h | h
      · subst h; intro hfalse; simp at hfalse
      · exact hzero s (List.mem_cons_of_mem _ h)
    · rw [if_neg hp] at hs
      rcases List.mem_cons.mp hs with h | h
      · subst h; exact hzero s (List.mem_cons_self _ _)
      · exact ih (fun q hq => hzero q (List.mem_cons_of_mem _ hq)) s h

theorem map_length_of_invariant (l : List VolumeSegment)
    (hzero : ∀ s ∈ l, s.is_complete = false → s.length = 0) :
    l.map (fun s => if s.is_complete then s.length else 0) =
      l.map (fun s => s.length) := by
  induction l with
  | nil => simp
  | cons s rest ih =>
    simp only [List.map_cons, List.cons.injEq]
    constructor
    · cases hc : s.is_complete with
      | true => simp
      | false => simp [hzero s (List.mem_cons_self _ _) hc]
    · exact ih (fun q hq => hzero q (List.mem_cons_of_mem _ hq))

theorem layoutAux_spec (states : List FileState) :
    ∀ off : Nat,
      ((layoutAux off states).1.map (fun s => s.length) =
        states.map (fun s => s.rar_length)) ∧
      (layoutAux off states).2 =
        off + (states.map (fun s => s.rar_length)).sum ∧
      (∀ (j : Nat) (lj : FileLayout), (layoutAux off states).1[j]? = some lj →
        lj.virtual_start = off +
          ((states.take j).map (fun s => s.rar_length)).sum) := by
  induction states with
  | nil =>
    intro off
    refine ⟨by simp [layoutAux], by simp [layoutAux], ?_⟩
    intro j lj h
    simp [layoutAux] at h
  | cons s rest ih =>
    intro off
    obtain ⟨ih1, ih2, ih3⟩ := ih (off + s.rar_length)
    refine ⟨?_, ?_, ?_⟩
    · simp [layoutAux, ih1]
    · simp [layoutAux, ih2, Nat.add_assoc]
    · intro j lj h
      cases j with
      | zero =>
        simp only [layoutAux, List.getElem?_cons_zero,
          Option.some.injEq] at h
        subst h
        simp
      | succ j =>
        simp only [layoutAux, List.getElem?_cons_succ] at h
        rw [ih3 j lj h]
        simp [List.take_succ_cons, Nat.add_assoc]

/-- C8, counterexample.  Mark volume 2 complete (payload length 70) while
volume 1 - whose download task carries payload length 100 - is still
incomplete: the recomputed virtual offset of volume 2 is 50, the length
of volume 0 alone, not 50 + 100 as the claim (sum of the payload lengths
of all volumes before it, even when intermediate volumes are incomplete)
requires. -/
theorem c8_offset_counterexample :
    mark_file_complete demoSegs 2 7 70 = .ok demoSegsAfter ∧
    (∀ s2, demoSegsAfter[2]? = some s2 → s2.virtual_start = 50) ∧
    (50 : Nat) ≠ 50 + 100 := by
  refine ⟨rfl, ?_, by decide⟩
  intro s2 h
  simp only [demoSegsAfter] at h
  simp at h
  subst h
  rfl

/-- C8, amended.  After every recomputation the virtual start offset of
volume `k` equals the sum of the recorded payload lengths of the volumes
before it, where a not-yet-complete volume records length 0 - so complete
volumes beyond an incomplete one are placed as if the incomplete volumes
before them had zero payload, and the written ranges
`[O_k, O_k + length_k)` are consecutive and pairwise disjoint.  The
orchestrator layout avoids the issue differently: it only contains the
longest complete prefix, inside which every offset is the sum of all
previous payload lengths, and the stored available bytes are the total of
the layout lengths. -/
theorem c8_virtual_offsets_amended (segs : List VolumeSegment)
    (path st len k : Nat) (segs2 : List VolumeSegment)
    (s2 : VolumeSegment)
    (hzero : ∀ s ∈ segs, s.is_complete = false → s.length = 0)
    (hok : mark_file_complete segs path st len = .ok segs2)
    (hk : segs2[k]? = some s2) :
    (s2.virtual_start = ((segs2.take k).map (fun s => s.length)).sum) ∧
    (∀ (states : List FileState) (layout : List FileLayout) (avail j : Nat)
      (lj : FileLayout),
      rebuild_layout states = some (layout, avail) → layout[j]? = some lj →
      lj.virtual_start = ((layout.take j).map (fun s => s.length)).sum ∧
      avail = (layout.map (fun s => s.length)).sum) := by
  constructor
  · unfold mark_file_complete at hok
    by_cases hany : segs.any (fun s => s.path == path)
    · rw [if_pos hany] at hok
      have hsegs2 : segs2 = recalc (updateFirst segs path st len) := by
        simpa using hok.symm
      subst hsegs2
      set pre := updateFirst segs path st len with hpre
      have hinv : ∀ s ∈ pre, s.is_complete = false → s.length = 0 :=
        updateFirst_invariant segs path st len hzero
      have hget := recalcAux_getElem pre 0 k s2 hk
      rw [hget]
      have hfields := recalcAux_fields pre 0
      have hlen_eq : (recalc pre).map (fun s => s.length) =
          pre.map (fun s => s.length) := by
        have := congrArg (List.map Prod.fst) hfields
        simpa [recalc, Function.comp] using this
      have htake : ((recalc pre).take k).map (fun s => s.length) =
          (pre.take k).map (fun s => s.length) := by
        rw [List.map_take, List.map_take, hlen_eq]
      rw [htake]
      have hinv_take : ∀ s ∈ pre.take k, s.is_complete = false →
          s.length = 0 :=
        fun s hs => hinv s (List.mem_of_mem_take hs)
      rw [Nat.zero_add, map_length_of_invariant (pre.take k) hinv_take]
    · rw [if_neg hany] at hok
      simp at hok
  · intro states layout avail j lj hrb hj
    unfold rebuild_layout at hrb
    by_cases hemp : (states.takeWhile (fun s => s.is_complete)).isEmpty
    · rw [if_pos hemp] at hrb
      simp at hrb
    · rw [if_neg hemp] at hrb
      set continuous := states.takeWhile (fun s => s.is_complete)
      obtain ⟨h1, h2, h3⟩ := layoutAux_spec continuous 0
      have hl : layout = (layoutAux 0 continuous).1 := by
        have := hrb
        simp only [Option.some.injEq] at this
        exact (congrArg Prod.fst this).symm
      have ha : avail = (layoutAux 0 continuous).2 := by
        simp only [Option.some.injEq] at hrb
        exact (congrArg Prod.snd hrb).symm
      subst hl
      constructor
      · rw [h3 j lj hj, List.map_take, List.map_take, h1]
        simp
      · rw [ha, h2, ← h1]
        simp

/-- C8, witness: the amended theorem at the counterexample state (volume
2 lands at offset 50, the sum of the recorded lengths 50 and 0 before
it) and at a two-file orchestrator snapshot. -/
theorem c8_virtual_offsets_amended_witness :
    (⟨2, 7, 70, 50, true⟩ : VolumeSegment).virtual_start =
      ((demoSegsAfter.take 2).map (fun s => s.length)).sum :=
  (c8_virtual_offsets_amended demoSegs 2 7 70 2 demoSegsAfter
    ⟨2, 7, 70, 50, true⟩ (by decide) rfl rfl).1

end Vfs

/-! ## C9: range requests landing in a hole -/

namespace Http

/-- C9 (the HTTP handler combining the parser with the availability
check is spec-modelled, see `stream_route`).  A Range header that the
parser accepts - in particular `bytes=N-`, which parses to start `N`
with an open end, implying `N < total` - but whose start lies at or
beyond the currently available bytes is answered 503 (service
unavailable, sent with Retry-After), and parser rejections pass their
status through unchanged, so 416 stays reserved for the clearly invalid
ranges the parser rejects (start or end beyond the stream, start after
end, malformed headers being 400). -/
theorem c9_range_in_hole_503 (hdr : List Char) (available total : Nat)
    (r : RangeRequest)
    (hparse : parse_range_header (some hdr) total = .ok (some r))
    (havail : available ≤ r.start) :
    stream_route (some hdr) available total = 503 ∧
    (∀ (hdr2 : List Char) (c : Nat),
      parse_range_header (some hdr2) total = .error c →
      stream_route (some hdr2) available total = c) := by
  constructor
  · unfold stream_route
    rw [hparse]
    simp [havail]
  · intro hdr2 c hc
    unfold stream_route
    rw [hc]

/-- C9, witness: `bytes=5-` against a 10-byte stream of which 3 bytes
are available is answered 503, and `bytes=12-` (beyond the stream) gets
the 416 of the parser. -/
theorem c9_range_in_hole_503_witness :
    stream_route (some ['b', 'y', 't', 'e', 's', '=', '5', '-']) 3 10 =
      503 ∧
    stream_route (some ['b', 'y', 't', 'e', 's', '=', '1', '2', '-']) 3 10 =
      416 := by
  have h := c9_range_in_hole_503 ['b', 'y', 't', 'e', 's', '=', '5', '-']
    3 10 ⟨5, none⟩ rfl (by decide)
  exact ⟨h.1, h.2 ['b', 'y', 't', 'e', 's', '=', '1', '2', '-'] 416 rfl⟩

end Http

end NzbStreamer
